import Mathlib

/-!
Verification of the LSB steganography detection core.

This file gives a shallow embedding of the algorithmic core of the
steganography detection tool: the two near-duplicate detector modules
(`core.py`, the early variant, and `stegdet/core.py`, the refined variant),
together with the per-image aggregation of `stegdet/utils/file_utils.py`.

Conventions of the embedding:
* a channel matrix is a `List (List Nat)` of rows (row-major), pixel values
  are machine bytes in `[0,255]`;
* an RGB image is a `List (List (Nat × Nat × Nat))` of rows of
  (red, green, blue) triples;
* bit sequences are `List Nat` with entries 0/1;
* Python floats are modelled by `ℚ` where the computation is exact
  (chi-square, the printable-ratio comparison) and by `ℝ` where it is
  genuinely real-valued (Shannon entropy);
* a Python function that can raise is modelled with `Except Unit`, the
  `.error` arm standing for the raised exception.
-/

namespace StegDet

/-! ## Bits, bytes and integers -/

/-- Binary value of a bit list, most significant bit first.  This is
`int(bit_str, 2)` from `LSBDetector.bits_to_int` in `core.py`. -/
def bitsToNat (bits : List Nat) : Nat :=
  bits.foldl (fun a b => 2 * a + b) 0

/-- The byte value `np.packbits` assigns to one group of at most 8 bits:
bits fill the byte from the most significant end, and a final short group
is zero-padded on the least significant side. -/
def byteFromBits (chunk : List Nat) : Nat :=
  chunk.foldl (fun a b => 2 * a + b) 0 * 2 ^ (8 - chunk.length)

/-- `np.packbits`: pack a bit list into bytes, 8 bits per byte, MSB first,
the last byte zero-padded; byte `i` packs the chunk of (up to) 8 bits
starting at position `8*i`. -/
def packbits (l : List Nat) : List Nat :=
  (List.range ((l.length + 7) / 8)).map (fun i => byteFromBits ((l.drop (8 * i)).take 8))

/-- Big-endian byte interpretation, `int.from_bytes(_, byteorder="big")`. -/
def fromBytesBE (bytes : List Nat) : Nat :=
  bytes.foldl (fun a b => 256 * a + b) 0

/-- `LSBDetector.bits_to_int` from `stegdet/core.py`:
`int.from_bytes(np.packbits(bits), byteorder="big")`. -/
def bits_to_int (bits : List Nat) : Nat :=
  fromBytesBE (packbits bits)

/-- Spec-side big-endian encoder: the `w`-bit big-endian bit list of `n`. -/
def natToBits (w n : Nat) : List Nat :=
  (List.range w).map (fun i => n / 2 ^ (w - 1 - i) % 2)

/-- Spec-side expansion of a byte list into bits, 8 bits per byte, MSB
first (the inverse direction of `np.packbits` on whole bytes). -/
def bytesToBits (bytes : List Nat) : List Nat :=
  (bytes.map (natToBits 8)).flatten

/-! ## Channel selection and bit-plane extraction -/

/-- `pixels[:, :, idx]`: select one colour component of every pixel.
The channel-name dictionary maps red to 0, green to 1 and anything else
(including the default) to 2 (blue). -/
def selectChannel (pixels : List (List (Nat × Nat × Nat))) (idx : Nat) :
    List (List Nat) :=
  pixels.map (List.map (fun p => if idx = 0 then p.1 else if idx = 1 then p.2.1 else p.2.2))

/-- Pillow's RGB→L ("grayscale") conversion used by `core.py`
(`image.convert("L")`, ITU-R 601-2 luma as implemented by Pillow:
`L = (19595*R + 38470*G + 7471*B) >> 16`). -/
def grayscale (pixels : List (List (Nat × Nat × Nat))) : List (List Nat) :=
  pixels.map (List.map (fun p => (19595 * p.1 + 38470 * p.2.1 + 7471 * p.2.2) >>> 16))

/-- Bit-plane extraction of `stegdet/core.py` `analyze_bitplane`:
`((channel_data >> plane) & 1).flatten()`. -/
def extract_plane (m : List (List Nat)) (k : Nat) : List Nat :=
  (m.map (List.map (fun v => (v >>> k) &&& 1))).flatten

/-- Bit-plane extraction of `core.py` `analyze_bitplane`:
`((gray & mask) > 0).astype(np.uint8).flatten()` with `mask = 1 << plane`. -/
def analyze_bits_core (m : List (List Nat)) (k : Nat) : List Nat :=
  (m.map (List.map (fun v => if v &&& (1 <<< k) ≠ 0 then 1 else 0))).flatten

/-- `LSBDetector.extract_lsb` (identical in both modules): `channel & 1`,
kept two-dimensional; callers flatten it. -/
def extract_lsb (m : List (List Nat)) : List (List Nat) :=
  m.map (List.map (fun v => v &&& 1))

/-! ## Chi-square statistic (exact rational arithmetic) -/

/-- `LSBDetector.chi_square` (identical formula in both modules):
`exp = n/2`, observed counts of 0 and 1, Pearson statistic; returns 0.0 on
the empty input. -/
def chi_square (bits : List Nat) : ℚ :=
  if bits.length = 0 then 0
  else
    let exp : ℚ := (bits.length : ℚ) / 2
    ((bits.count 0 : ℚ) - exp) ^ 2 / exp + ((bits.count 1 : ℚ) - exp) ^ 2 / exp

/-! ## Shannon entropy (real arithmetic) -/

/-- `LSBDetector.compute_entropy`.  Both modules compute the empirical
two-symbol distribution (`p1 = bits.sum()/total`, `p0 = 1 - p1`; the
vectorised variant obtains the same two probabilities through `bincount`)
and add `-p * log2 p` for each probability that is strictly positive,
returning 0.0 on the empty input. -/
noncomputable def compute_entropy (bits : List Nat) : ℝ :=
  if bits.length = 0 then 0
  else
    let p1 : ℝ := (bits.sum : ℝ) / (bits.length : ℝ)
    let p0 : ℝ := 1 - p1
    (if 0 < p0 then -(p0 * Real.logb 2 p0) else 0) +
      (if 0 < p1 then -(p1 * Real.logb 2 p1) else 0)

/-! ## Per-image aggregation (`scan_directory` in
`stegdet/utils/file_utils.py`)

Only the arithmetic of the per-file record is modelled; directory walking,
file validation and report export are I/O collaborators outside the core. -/

/-- Entropy of one bit plane of a channel matrix, as produced by
`analyze_bitplane` (`stats[plane]["entropy"]`). -/
noncomputable def plane_entropy (m : List (List Nat)) (k : Nat) : ℝ :=
  compute_entropy (extract_plane m k)

/-- Chi-square of one bit plane of a channel matrix, as produced by
`analyze_bitplane` (`stats[plane]["chi2"]`). -/
def plane_chi2 (m : List (List Nat)) (k : Nat) : ℚ :=
  chi_square (extract_plane m k)

/-- `sum(s["entropy"] for s in stats.values()) / 8`. -/
noncomputable def channel_entropy_avg (m : List (List Nat)) : ℝ :=
  (((List.range 8).map (plane_entropy m)).sum) / 8

/-- Python's `max` over a non-empty collection: the fold of the binary
maximum from the first element.  The empty case never arises (the stats
dictionary always has 8 entries); it is given the junk value 0. -/
def listMax : List ℚ → ℚ
  | [] => 0
  | a :: t => t.foldl max a

/-- `max(s["chi2"] for s in stats.values())`. -/
def channel_chi2_max (m : List (List Nat)) : ℚ :=
  listMax ((List.range 8).map (plane_chi2 m))

/-- Spec-side arithmetic mean of a list of reals. -/
noncomputable def listMeanR (l : List ℝ) : ℝ := l.sum / (l.length : ℝ)

/-- The statistics fields of one file's result record in
`scan_directory`. -/
structure ImageRecord where
  red_entropy_avg : ℝ
  green_entropy_avg : ℝ
  blue_entropy_avg : ℝ
  red_chi2_max : ℚ
  green_chi2_max : ℚ
  blue_chi2_max : ℚ
  entropy_avg : ℝ
  chi2_max : ℚ

/-- The per-file statistics record built by `scan_directory`: per-channel
averages and maxima from the three `analyze_bitplane` runs, then the
overall mean of the three averages and maximum of the three maxima. -/
noncomputable def scan_record (pixels : List (List (Nat × Nat × Nat))) :
    ImageRecord :=
  let r := selectChannel pixels 0
  let g := selectChannel pixels 1
  let b := selectChannel pixels 2
  { red_entropy_avg := channel_entropy_avg r
    green_entropy_avg := channel_entropy_avg g
    blue_entropy_avg := channel_entropy_avg b
    red_chi2_max := channel_chi2_max r
    green_chi2_max := channel_chi2_max g
    blue_chi2_max := channel_chi2_max b
    entropy_avg :=
      (channel_entropy_avg r + channel_entropy_avg g + channel_entropy_avg b) / 3
    chi2_max := max (max (channel_chi2_max r) (channel_chi2_max g)) (channel_chi2_max b) }

/-! ## UTF-8 encoding and lossy decoding

`detect_message` calls `bytes.decode('utf-8', errors='ignore')`.  The model
below follows CPython's UTF-8 decoder: well-formed sequences (with the
RFC 3629 continuation-range restrictions that exclude overlong forms,
surrogates and code points above U+10FFFF) are decoded, and bytes that do
not start a well-formed sequence are dropped.  Under `errors='ignore'` the
output of dropping an invalid sequence byte-by-byte coincides with
CPython's maximal-subpart skipping, because the continuation bytes of a
rejected sequence can never start a new character. -/

/-- A Unicode scalar value: a code point below U+110000 that is not a
surrogate. -/
def ValidScalar (c : Nat) : Prop :=
  c < 0x110000 ∧ ¬(0xD800 ≤ c ∧ c ≤ 0xDFFF)

instance (c : Nat) : Decidable (ValidScalar c) := by
  unfold ValidScalar
  infer_instance

/-- UTF-8 encoding of one scalar value (what `str.encode('utf-8')` emits
per character). -/
def utf8EncodeChar (c : Nat) : List Nat :=
  if c < 0x80 then [c]
  else if c < 0x800 then [0xC0 + c / 64, 0x80 + c % 64]
  else if c < 0x10000 then [0xE0 + c / 4096, 0x80 + c / 64 % 64, 0x80 + c % 64]
  else [0xF0 + c / 262144, 0x80 + c / 4096 % 64, 0x80 + c / 64 % 64, 0x80 + c % 64]

/-- UTF-8 encoding of a string, modelled as a list of scalar values. -/
def utf8Encode (s : List Nat) : List Nat :=
  (s.map utf8EncodeChar).flatten

/-- The state of CPython's UTF-8 decoding automaton in the middle of a
multi-byte sequence: the number of continuation bytes still expected, the
code-point bits accumulated so far, and the allowed range for the next
continuation byte (the first continuation byte of a sequence has a
restricted range that excludes overlong forms, surrogates and code points
above U+10FFFF). -/
abbrev Utf8Pending := Nat × Nat × Nat × Nat

/-- Process one byte in the "no pending sequence" state: ASCII is output
directly, a valid lead byte opens a pending sequence (with the
lead-specific range for its first continuation byte), and an invalid lead
byte (`0x80`–`0xC1`, `0xF5`–`0xFF`) is dropped, as `errors='ignore'`
does. -/
def utf8Lead (out : List Nat) (b : Nat) : List Nat × Option Utf8Pending :=
  if b < 0x80 then (out ++ [b], none)
  else if 0xC2 ≤ b ∧ b ≤ 0xDF then (out, some (1, b - 0xC0, 0x80, 0xBF))
  else if 0xE0 ≤ b ∧ b ≤ 0xEF then
    (out, some (2, b - 0xE0, if b = 0xE0 then 0xA0 else 0x80, if b = 0xED then 0x9F else 0xBF))
  else if 0xF0 ≤ b ∧ b ≤ 0xF4 then
    (out, some (3, b - 0xF0, if b = 0xF0 then 0x90 else 0x80, if b = 0xF4 then 0x8F else 0xBF))
  else (out, none)

/-- One step of CPython's UTF-8 decoder with `errors='ignore'`: a byte in
the expected continuation range extends (or completes) the pending
sequence; any other byte makes the decoder drop the pending sequence and
reconsider the byte as a lead byte. -/
def utf8Step : List Nat × Option Utf8Pending → Nat → List Nat × Option Utf8Pending
  | (out, none), b => utf8Lead out b
  | (out, some (need, acc, lo, hi)), b =>
    if lo ≤ b ∧ b ≤ hi then
      if need ≤ 1 then (out ++ [acc * 64 + (b - 0x80)], none)
      else (out, some (need - 1, acc * 64 + (b - 0x80), 0x80, 0xBF))
    else utf8Lead out b

/-- `bytes.decode('utf-8', errors='ignore')`: run the decoding automaton
over the byte list; a sequence left incomplete at the end of the input is
dropped. -/
def utf8Decode (l : List Nat) : List Nat :=
  (l.foldl utf8Step ([], none)).1

/-! ## Message detection -/

/-- Is a code point printable ASCII?  This is `32 <= ord(c) <= 126`. -/
def printableChar (c : Nat) : Bool :=
  decide (32 ≤ c ∧ c ≤ 126)

/-- `LSBDetector.detect_message` from `stegdet/core.py`, acting on the
flattened LSB bit sequence of the selected channel.  `printable_ratio` is
the exact rational value of the float threshold. -/
def detect_message (bits : List Nat) (max_bytes : Nat) (printable_ratio : ℚ) :
    Option (List Nat) :=
  if bits.length < 32 then none
  else
    let len := bits_to_int (bits.take 32)
    if len = 0 ∨ max_bytes < len then none
    else
      let total_bits := 32 + len * 8
      if bits.length < total_bits then none
      else
        let msg := utf8Decode (packbits ((bits.drop 32).take (len * 8)))
        if msg = [] then none
        else
          let printable := (msg.filter printableChar).length
          if (printable : ℚ) / (msg.length : ℚ) < printable_ratio then none
          else some msg

/-- `LSBDetector.detect_message` from `core.py`.  That variant has no
empty-message guard: when the lossy decode yields an empty string it
evaluates `printable / len(msg)` with `len(msg) = 0` and the interpreter
raises `ZeroDivisionError`, modelled by the `.error` arm. -/
def detect_message_core (bits : List Nat) (max_bytes : Nat)
    (printable_ratio : ℚ) : Except Unit (Option (List Nat)) :=
  if bits.length < 32 then .ok none
  else
    let len := bitsToNat (bits.take 32)
    if len = 0 ∨ max_bytes < len then .ok none
    else
      let total_bits := 32 + len * 8
      if bits.length < total_bits then .ok none
      else
        let msg := utf8Decode (packbits ((bits.drop 32).take (len * 8)))
        if msg.length = 0 then .error ()
        else
          let printable := (msg.filter printableChar).length
          if (printable : ℚ) / (msg.length : ℚ) < printable_ratio then .ok none
          else .ok (some msg)

/-! ## Bit-plane visualisation -/

/-- `bit_plane_view` from `stegdet/core.py`:
`((channel_data >> plane) & 1) * 255` on the selected channel of the RGB
image.  The product stays below 256, so the `uint8` cast is exact. -/
def bit_plane_view (pixels : List (List (Nat × Nat × Nat))) (plane : Nat)
    (idx : Nat) : List (List Nat) :=
  (selectChannel pixels idx).map (List.map (fun v => ((v >>> plane) &&& 1) * 255))

/-- `bit_plane_view` from `core.py`: `(arr & mask) * 255` with
`mask = 1 << plane` on the grayscale conversion.  The multiplication is
performed in `uint8`, hence the mod-256 wraparound. -/
def bit_plane_view_core (pixels : List (List (Nat × Nat × Nat)))
    (plane : Nat) : List (List Nat) :=
  (grayscale pixels).map (List.map (fun v => (v &&& (1 <<< plane)) * 255 % 256))

/-! ## Helper lemmas: bits, bytes and integers -/

lemma foldl_two_acc (l : List Nat) : ∀ a : Nat,
    l.foldl (fun x b => 2 * x + b) a =
      a * 2 ^ l.length + l.foldl (fun x b => 2 * x + b) 0 := by
  induction l with
  | nil => simp
  | cons b t ih =>
    intro a
    simp only [List.foldl_cons, List.length_cons]
    rw [ih (2 * a + b), ih (2 * 0 + b)]
    ring

lemma foldl_byte_acc (l : List Nat) : ∀ a : Nat,
    l.foldl (fun x b => 256 * x + b) a =
      a * 256 ^ l.length + l.foldl (fun x b => 256 * x + b) 0 := by
  induction l with
  | nil => simp
  | cons b t ih =>
    intro a
    simp only [List.foldl_cons, List.length_cons]
    rw [ih (256 * a + b), ih (256 * 0 + b)]
    ring

lemma bitsToNat_append (l1 l2 : List Nat) :
    bitsToNat (l1 ++ l2) = bitsToNat l1 * 2 ^ l2.length + bitsToNat l2 := by
  unfold bitsToNat
  rw [List.foldl_append, foldl_two_acc]

lemma bitsToNat_cons (b : Nat) (t : List Nat) :
    bitsToNat (b :: t) = b * 2 ^ t.length + bitsToNat t := by
  unfold bitsToNat
  simp only [List.foldl_cons]
  rw [foldl_two_acc t (2 * 0 + b)]
  ring_nf

lemma length_natToBits (w n : Nat) : (natToBits w n).length = w := by
  simp [natToBits]

lemma natToBits_succ (w n : Nat) :
    natToBits (w + 1) n = n / 2 ^ w % 2 :: natToBits w n := by
  unfold natToBits
  rw [List.range_succ_eq_map]
  simp only [List.map_cons, List.map_map]
  rw [List.cons_eq_cons]
  refine ⟨by simp, ?_⟩
  apply List.map_congr_left
  intro i _
  simp only [Function.comp_apply, Nat.succ_eq_add_one]
  have h2 : w + 1 - 1 - (i + 1) = w - 1 - i := by omega
  rw [h2]

lemma bitsToNat_natToBits (w n : Nat) : bitsToNat (natToBits w n) = n % 2 ^ w := by
  induction w with
  | zero => simp [natToBits, bitsToNat, Nat.mod_one]
  | succ w ih =>
    rw [natToBits_succ, bitsToNat_cons, length_natToBits, ih, pow_succ, Nat.mod_mul]
    ring

lemma fromBytesBE_cons (b : Nat) (bs : List Nat) :
    fromBytesBE (b :: bs) = b * 256 ^ bs.length + fromBytesBE bs := by
  unfold fromBytesBE
  simp only [List.foldl_cons]
  rw [foldl_byte_acc bs (256 * 0 + b)]
  ring_nf

lemma byteFromBits_full (x : List Nat) (hx : x.length = 8) :
    byteFromBits x = bitsToNat x := by
  unfold byteFromBits bitsToNat
  rw [hx]
  simp

lemma packbits_nil : packbits [] = [] := rfl

lemma packbits_cons8 (x y : List Nat) (hx : x.length = 8) :
    packbits (x ++ y) = byteFromBits x :: packbits y := by
  unfold packbits
  have h1 : ((x ++ y).length + 7) / 8 = (y.length + 7) / 8 + 1 := by
    rw [List.length_append, hx]
    omega
  rw [h1, List.range_succ_eq_map]
  simp only [List.map_cons, List.map_map]
  rw [List.cons_eq_cons]
  refine ⟨?_, ?_⟩
  · rw [Nat.mul_zero, List.drop_zero, ← hx, List.take_left]
  · apply List.map_congr_left
    intro i _
    simp only [Function.comp_apply, Nat.succ_eq_add_one]
    congr 2
    have h3 : 8 * (i + 1) = x.length + 8 * i := by omega
    rw [h3, ← List.drop_drop, List.drop_left]

lemma packbits_bitsToNat : ∀ (N : Nat) (l : List Nat), l.length = 8 * N →
    256 ^ (packbits l).length = 2 ^ l.length ∧
      fromBytesBE (packbits l) = bitsToNat l := by
  intro N
  induction N with
  | zero =>
    intro l hl
    have : l = [] := List.eq_nil_of_length_eq_zero (by omega)
    subst this
    simp [packbits_nil, fromBytesBE, bitsToNat]
  | succ N ih =>
    intro l hl
    have hx : (l.take 8).length = 8 := by
      rw [List.length_take]
      omega
    have hy : (l.drop 8).length = 8 * N := by
      rw [List.length_drop]
      omega
    have hsplit : l = l.take 8 ++ l.drop 8 := (List.take_append_drop 8 l).symm
    obtain ⟨ihpow, ihval⟩ := ih (l.drop 8) hy
    constructor
    · rw [hsplit, packbits_cons8 _ _ hx, List.length_cons, List.length_append,
        hx, hy, pow_succ, ihpow]
      have h256 : (256 : Nat) = 2 ^ 8 := by norm_num
      rw [hy, h256, ← pow_add]
      congr 1
      omega
    · rw [hsplit, packbits_cons8 _ _ hx, fromBytesBE_cons, ihpow, ihval,
        bitsToNat_append, byteFromBits_full _ hx, hy]

lemma bits_to_int_eq_bitsToNat (l : List Nat) (h : l.length % 8 = 0) :
    bits_to_int l = bitsToNat l := by
  unfold bits_to_int
  exact (packbits_bitsToNat (l.length / 8) l (by omega)).2

lemma bits_to_int_natToBits32 (n : Nat) (h : n < 2 ^ 32) :
    bits_to_int (natToBits 32 n) = n := by
  rw [bits_to_int_eq_bitsToNat _ (by rw [length_natToBits]), bitsToNat_natToBits,
    Nat.mod_eq_of_lt h]

lemma bytesToBits_nil : bytesToBits [] = [] := rfl

lemma bytesToBits_cons (b : Nat) (bs : List Nat) :
    bytesToBits (b :: bs) = natToBits 8 b ++ bytesToBits bs := by
  simp [bytesToBits]

lemma length_bytesToBits (bs : List Nat) :
    (bytesToBits bs).length = 8 * bs.length := by
  induction bs with
  | nil => simp [bytesToBits_nil]
  | cons b t ih =>
    rw [bytesToBits_cons, List.length_append, length_natToBits, ih,
      List.length_cons]
    ring

lemma packbits_bytesToBits (bs : List Nat) (h : ∀ b ∈ bs, b < 256) :
    packbits (bytesToBits bs) = bs := by
  induction bs with
  | nil => simp [bytesToBits_nil, packbits_nil]
  | cons b t ih =>
    rw [bytesToBits_cons, packbits_cons8 _ _ (length_natToBits 8 b),
      byteFromBits_full _ (length_natToBits 8 b), bitsToNat_natToBits,
      ih (fun x hx => h x (List.mem_cons_of_mem b hx))]
    have : b % 2 ^ 8 = b := Nat.mod_eq_of_lt (h b (List.mem_cons_self b t))
    rw [this]

/-! ## Helper lemmas: the UTF-8 round trip -/

lemma utf8Step_none_eq (out : List Nat) (b : Nat) :
    utf8Step (out, none) b = utf8Lead out b := rfl

lemma utf8Step_some_eq (out : List Nat) (need acc lo hi b : Nat) :
    utf8Step (out, some (need, acc, lo, hi)) b =
      if lo ≤ b ∧ b ≤ hi then
        if need ≤ 1 then (out ++ [acc * 64 + (b - 0x80)], none)
        else (out, some (need - 1, acc * 64 + (b - 0x80), 0x80, 0xBF))
      else utf8Lead out b := rfl

lemma utf8Step_ascii (out : List Nat) (b : Nat) (h : b < 0x80) :
    utf8Step (out, none) b = (out ++ [b], none) := by
  rw [utf8Step_none_eq, utf8Lead, if_pos h]

lemma utf8Step_lead2 (out : List Nat) (b : Nat) (h : 0xC2 ≤ b) (h2 : b ≤ 0xDF) :
    utf8Step (out, none) b = (out, some (1, b - 0xC0, 0x80, 0xBF)) := by
  rw [utf8Step_none_eq, utf8Lead, if_neg (by omega), if_pos ⟨h, h2⟩]

lemma utf8Step_lead3 (out : List Nat) (b : Nat) (h : 0xE0 ≤ b) (h2 : b ≤ 0xEF) :
    utf8Step (out, none) b =
      (out, some (2, b - 0xE0, if b = 0xE0 then 0xA0 else 0x80,
        if b = 0xED then 0x9F else 0xBF)) := by
  rw [utf8Step_none_eq, utf8Lead, if_neg (by omega), if_neg (by omega), if_pos ⟨h, h2⟩]

lemma utf8Step_lead4 (out : List Nat) (b : Nat) (h : 0xF0 ≤ b) (h2 : b ≤ 0xF4) :
    utf8Step (out, none) b =
      (out, some (3, b - 0xF0, if b = 0xF0 then 0x90 else 0x80,
        if b = 0xF4 then 0x8F else 0xBF)) := by
  rw [utf8Step_none_eq, utf8Lead, if_neg (by omega), if_neg (by omega),
    if_neg (by omega), if_pos ⟨h, h2⟩]

lemma utf8Step_cont (out : List Nat) (need acc lo hi b : Nat) (h : lo ≤ b)
    (h2 : b ≤ hi) (h3 : ¬ need ≤ 1) :
    utf8Step (out, some (need, acc, lo, hi)) b =
      (out, some (need - 1, acc * 64 + (b - 0x80), 0x80, 0xBF)) := by
  rw [utf8Step_some_eq, if_pos ⟨h, h2⟩, if_neg h3]

lemma utf8Step_fin (out : List Nat) (acc lo hi b : Nat) (h : lo ≤ b)
    (h2 : b ≤ hi) :
    utf8Step (out, some (1, acc, lo, hi)) b =
      (out ++ [acc * 64 + (b - 0x80)], none) := by
  rw [utf8Step_some_eq, if_pos ⟨h, h2⟩, if_pos (by norm_num)]

/-- Feeding the UTF-8 encoding of one valid scalar into the decoding
automaton, starting and ending with no pending sequence, outputs exactly
that scalar. -/
lemma utf8_foldl_encodeChar (c : Nat) (hv : ValidScalar c) (out : List Nat) :
    (utf8EncodeChar c).foldl utf8Step (out, none) = (out ++ [c], none) := by
  obtain ⟨hlt, hsur⟩ := hv
  rcases Nat.lt_or_ge c 0x80 with h1 | h1
  · rw [utf8EncodeChar, if_pos h1]
    simp only [List.foldl_cons, List.foldl_nil]
    rw [utf8Step_ascii out c h1]
  · rcases Nat.lt_or_ge c 0x800 with h2 | h2
    · rw [utf8EncodeChar, if_neg (by omega), if_pos h2]
      simp only [List.foldl_cons, List.foldl_nil]
      rw [utf8Step_lead2 out _ (by omega) (by omega),
        utf8Step_fin out _ _ _ _ (by omega) (by omega)]
      have hc : (0xC0 + c / 64 - 0xC0) * 64 + (0x80 + c % 64 - 0x80) = c := by omega
      rw [hc]
    · rcases Nat.lt_or_ge c 0x10000 with h3 | h3
      · rw [utf8EncodeChar, if_neg (by omega), if_neg (by omega), if_pos h3]
        simp only [List.foldl_cons, List.foldl_nil]
        rw [utf8Step_lead3 out _ (by omega) (by omega)]
        have s2 : utf8Step
            (out, some (2, 0xE0 + c / 4096 - 0xE0,
              if 0xE0 + c / 4096 = 0xE0 then 0xA0 else 0x80,
              if 0xE0 + c / 4096 = 0xED then 0x9F else 0xBF))
            (0x80 + c / 64 % 64) =
            (out, some (1, (0xE0 + c / 4096 - 0xE0) * 64 + (0x80 + c / 64 % 64 - 0x80),
              0x80, 0xBF)) := by
          rw [utf8Step_cont _ _ _ _ _ _ (by split <;> omega) (by split <;> omega)
            (by norm_num)]
        rw [s2, utf8Step_fin out _ _ _ _ (by omega) (by omega)]
        have hc : ((0xE0 + c / 4096 - 0xE0) * 64 + (0x80 + c / 64 % 64 - 0x80)) * 64 +
            (0x80 + c % 64 - 0x80) = c := by omega
        rw [hc]
      · rw [utf8EncodeChar, if_neg (by omega), if_neg (by omega), if_neg (by omega)]
        simp only [List.foldl_cons, List.foldl_nil]
        rw [utf8Step_lead4 out _ (by omega) (by omega)]
        have s2 : utf8Step
            (out, some (3, 0xF0 + c / 262144 - 0xF0,
              if 0xF0 + c / 262144 = 0xF0 then 0x90 else 0x80,
              if 0xF0 + c / 262144 = 0xF4 then 0x8F else 0xBF))
            (0x80 + c / 4096 % 64) =
            (out, some (2, (0xF0 + c / 262144 - 0xF0) * 64 + (0x80 + c / 4096 % 64 - 0x80),
              0x80, 0xBF)) := by
          rw [utf8Step_cont _ _ _ _ _ _ (by split <;> omega) (by split <;> omega)
            (by norm_num)]
        have s3 : utf8Step
            (out, some (2, (0xF0 + c / 262144 - 0xF0) * 64 + (0x80 + c / 4096 % 64 - 0x80),
              0x80, 0xBF)) (0x80 + c / 64 % 64) =
            (out, some (1, ((0xF0 + c / 262144 - 0xF0) * 64 + (0x80 + c / 4096 % 64 - 0x80)) * 64 +
              (0x80 + c / 64 % 64 - 0x80), 0x80, 0xBF)) := by
          rw [utf8Step_cont _ _ _ _ _ _ (by omega) (by omega) (by norm_num)]
        rw [s2, s3, utf8Step_fin out _ _ _ _ (by omega) (by omega)]
        have hc : (((0xF0 + c / 262144 - 0xF0) * 64 + (0x80 + c / 4096 % 64 - 0x80)) * 64 +
            (0x80 + c / 64 % 64 - 0x80)) * 64 + (0x80 + c % 64 - 0x80) = c := by omega
        rw [hc]

/-- Decoding the UTF-8 encoding of a list of valid scalars recovers the
list, for any already-produced output prefix. -/
lemma utf8_foldl_encode (s : List Nat) (hs : ∀ c ∈ s, ValidScalar c) :
    ∀ out : List Nat, (utf8Encode s).foldl utf8Step (out, none) = (out ++ s, none) := by
  induction s with
  | nil => simp [utf8Encode]
  | cons c t ih =>
    intro out
    have hc : ValidScalar c := hs c (List.mem_cons_self c t)
    have ht : ∀ x ∈ t, ValidScalar x := fun x hx => hs x (List.mem_cons_of_mem c hx)
    rw [utf8Encode, List.map_cons, List.flatten_cons, List.foldl_append,
      utf8_foldl_encodeChar c hc out]
    have := ih ht (out ++ [c])
    rw [utf8Encode] at this
    rw [this]
    simp

/-- The lossy UTF-8 decode is a left inverse of UTF-8 encoding on lists of
valid Unicode scalar values. -/
lemma utf8Decode_utf8Encode (s : List Nat) (hs : ∀ c ∈ s, ValidScalar c) :
    utf8Decode (utf8Encode s) = s := by
  rw [utf8Decode, utf8_foldl_encode s hs []]
  simp

/-- Every byte of a UTF-8 encoding is a machine byte. -/
lemma utf8Encode_lt256 (s : List Nat) (hs : ∀ c ∈ s, ValidScalar c) :
    ∀ b ∈ utf8Encode s, b < 256 := by
  intro b hb
  rw [utf8Encode, List.mem_flatten] at hb
  obtain ⟨l, hl, hbl⟩ := hb
  rw [List.mem_map] at hl
  obtain ⟨c, hc, rfl⟩ := hl
  obtain ⟨hlt, -⟩ := hs c hc
  rw [utf8EncodeChar] at hbl
  split at hbl
  · simp only [List.mem_singleton] at hbl
    omega
  · split at hbl
    · simp only [List.mem_cons, List.not_mem_nil, or_false] at hbl
      rcases hbl with rfl | rfl <;> omega
    · split at hbl
      · simp only [List.mem_cons, List.not_mem_nil, or_false] at hbl
        rcases hbl with rfl | rfl | rfl <;> omega
      · simp only [List.mem_cons, List.not_mem_nil, or_false] at hbl
        rcases hbl with rfl | rfl | rfl | rfl <;> omega

/-- A nonempty string has a nonempty UTF-8 encoding. -/
lemma utf8Encode_ne_nil (s : List Nat) (hs : s ≠ []) : utf8Encode s ≠ [] := by
  cases s with
  | nil => exact absurd rfl hs
  | cons c t =>
    rw [utf8Encode, List.map_cons, List.flatten_cons]
    have : utf8EncodeChar c ≠ [] := by
      rw [utf8EncodeChar]
      split
      · simp
      · split
        · simp
        · split <;> simp
    intro hcontra
    rw [List.append_eq_nil] at hcontra
    exact this hcontra.1

/-! ## Helper lemmas: decoder unfolding and bit counting -/

/-- One-step unfolding of `detect_message` with its `let` bindings
expanded. -/
lemma detect_message_eq (bits : List Nat) (max_bytes : Nat) (ratio : ℚ) :
    detect_message bits max_bytes ratio =
      if bits.length < 32 then none
      else if bits_to_int (bits.take 32) = 0 ∨ max_bytes < bits_to_int (bits.take 32) then
        none
      else if bits.length < 32 + bits_to_int (bits.take 32) * 8 then none
      else if utf8Decode (packbits ((bits.drop 32).take (bits_to_int (bits.take 32) * 8))) = [] then
        none
      else if (((utf8Decode (packbits ((bits.drop 32).take (bits_to_int (bits.take 32) * 8)))).filter printableChar).length : ℚ) /
            ((utf8Decode (packbits ((bits.drop 32).take (bits_to_int (bits.take 32) * 8)))).length : ℚ) <
          ratio then
        none
      else some (utf8Decode (packbits ((bits.drop 32).take (bits_to_int (bits.take 32) * 8)))) :=
  rfl

lemma count_zero_add_count_one (bits : List Nat) (h : ∀ b ∈ bits, b ≤ 1) :
    bits.count 0 + bits.count 1 = bits.length := by
  induction bits with
  | nil => simp
  | cons b t ih =>
    have hb : b = 0 ∨ b = 1 := by
      have := h b (List.mem_cons_self b t)
      omega
    have ht : t.count 0 + t.count 1 = t.length :=
      ih (fun x hx => h x (List.mem_cons_of_mem b hx))
    rcases hb with rfl | rfl <;> simp [List.count_cons] <;> try omega

lemma sum_eq_count_one (bits : List Nat) (h : ∀ b ∈ bits, b ≤ 1) :
    bits.sum = bits.count 1 := by
  induction bits with
  | nil => simp
  | cons b t ih =>
    have hb : b = 0 ∨ b = 1 := by
      have := h b (List.mem_cons_self b t)
      omega
    have ht : t.sum = t.count 1 :=
      ih (fun x hx => h x (List.mem_cons_of_mem b hx))
    rcases hb with rfl | rfl <;> simp [List.count_cons, ht] <;> try omega

/-! ## Helper lemmas: entropy -/

/-- The two-term sum computed by the entropy loop equals binary entropy in
bits, for any probability `p`. -/
lemma entropy_terms_eq (p : ℝ) (hp0 : 0 ≤ p) (hp1 : p ≤ 1) :
    ((if 0 < 1 - p then -((1 - p) * Real.logb 2 (1 - p)) else 0) +
      if 0 < p then -(p * Real.logb 2 p) else 0) =
      Real.binEntropy p / Real.log 2 := by
  rcases eq_or_lt_of_le hp0 with hz | hpos
  · rw [← hz]
    simp [Real.logb_one]
  · rcases eq_or_lt_of_le hp1 with ho | hlt
    · subst ho
      simp [Real.logb_one]
    · rw [if_pos (by linarith), if_pos hpos]
      rw [Real.binEntropy, Real.log_inv, Real.log_inv, Real.logb, Real.logb]
      have hlog : Real.log 2 ≠ 0 := ne_of_gt (Real.log_pos one_lt_two)
      field_simp
      ring

/-- On a nonempty bit sequence whose empirical one-probability is a
probability, `compute_entropy` is the binary entropy function in bits. -/
lemma compute_entropy_eq_binEntropy (bits : List Nat) (hne : bits.length ≠ 0)
    (hle : bits.sum ≤ bits.length) :
    compute_entropy bits =
      Real.binEntropy ((bits.sum : ℝ) / (bits.length : ℝ)) / Real.log 2 := by
  have hlen : (0 : ℝ) < (bits.length : ℝ) := by
    have : 0 < bits.length := Nat.pos_of_ne_zero hne
    exact_mod_cast this
  have hp0 : 0 ≤ (bits.sum : ℝ) / (bits.length : ℝ) :=
    div_nonneg (by positivity) (le_of_lt hlen)
  have hp1 : (bits.sum : ℝ) / (bits.length : ℝ) ≤ 1 := by
    rw [div_le_one hlen]
    exact_mod_cast hle
  have key := entropy_terms_eq ((bits.sum : ℝ) / (bits.length : ℝ)) hp0 hp1
  rw [compute_entropy, if_neg hne]
  exact key

/-! ## Claims -/

/-- Claim C1 (code bug): `detect_message` must never raise — in
particular an empty lossy decode must give the no-message outcome.  The
`stegdet/core.py` variant does return `None`, but the `core.py` variant
divides by `len(msg) = 0` and raises `ZeroDivisionError`.  The failing
input is the 40-bit LSB sequence encoding length 1 followed by the payload
byte `0xFF`, whose lossy UTF-8 decode is empty. -/
theorem claim_C1_empty_decode_divzero :
    detect_message_core (natToBits 32 1 ++ bytesToBits [255]) 1024 (4 / 5) =
        Except.error () ∧
      detect_message (natToBits 32 1 ++ bytesToBits [255]) 1024 (4 / 5) = none :=
  ⟨rfl, rfl⟩

/-- Claim C2 (counterexample): in `core.py` the bit sequence analysed by
`analyze_bitplane` is derived from the grayscale conversion, not from the
selected channel, so on the 1×1 image with RGB value (0,0,1) its plane-0
bits differ from the LSB bits that `detect_message` decodes from the blue
channel. -/
theorem claim_C2_counterexample :
    analyze_bits_core (grayscale [[(0, 0, 1)]]) 0 ≠
      (extract_lsb (selectChannel [[(0, 0, 1)]] 2)).flatten := by
  decide

/-- Claim C2 (amended): in the `stegdet/core.py` detector the plane-0 bit
sequence of `analyze_bitplane` equals, bit for bit, the flattened LSB
sequence that `detect_message` decodes, for every image and channel. -/
theorem claim_C2_stegdet_agreement (pixels : List (List (Nat × Nat × Nat)))
    (idx : Nat) :
    extract_plane (selectChannel pixels idx) 0 =
      (extract_lsb (selectChannel pixels idx)).flatten := by
  simp [extract_plane, extract_lsb, Nat.shiftRight_zero]

/-- Claim C4: bit-plane extraction yields one entry per pixel in row-major
order, entry `i` being `(v_i >>> k) &&& 1`; plane 0 equals `v &&& 1` and
coincides with `extract_lsb`; an empty matrix yields an empty sequence. -/
theorem claim_C4_plane_extraction (m : List (List Nat)) (k : Nat) :
    extract_plane m k = m.flatten.map (fun v => (v >>> k) &&& 1) ∧
    (extract_plane m k).length = m.flatten.length ∧
    (∀ i : Nat, (extract_plane m k)[i]? =
      (m.flatten[i]?).map (fun v => (v >>> k) &&& 1)) ∧
    extract_plane m 0 = m.flatten.map (fun v => v &&& 1) ∧
    (extract_lsb m).flatten = m.flatten.map (fun v => v &&& 1) ∧
    extract_plane ([] : List (List Nat)) k = [] := by
  have hmain : extract_plane m k = m.flatten.map (fun v => (v >>> k) &&& 1) := by
    rw [extract_plane, List.map_flatten]
  refine ⟨hmain, ?_, ?_, ?_, ?_, rfl⟩
  · rw [hmain, List.length_map]
  · intro i
    rw [hmain, List.getElem?_map]
  · rw [extract_plane, ← List.map_flatten]
    simp [Nat.shiftRight_zero]
  · rw [extract_lsb, ← List.map_flatten]

/-- Claim C6: the chi-square statistic is exactly the Pearson formula
against a 50/50 split, is nonnegative, is 0 on the empty sequence, and is
0 on a perfectly balanced 0/1 sequence. -/
theorem claim_C6_chi_square (bits : List Nat) :
    chi_square bits =
      ((bits.count 0 : ℚ) - (bits.length : ℚ) / 2) ^ 2 / ((bits.length : ℚ) / 2) +
        ((bits.count 1 : ℚ) - (bits.length : ℚ) / 2) ^ 2 / ((bits.length : ℚ) / 2) ∧
    0 ≤ chi_square bits ∧
    chi_square ([] : List Nat) = 0 ∧
    ((∀ b ∈ bits, b ≤ 1) → bits.count 0 = bits.count 1 → chi_square bits = 0) := by
  refine ⟨?_, ?_, by simp [chi_square], ?_⟩
  · rw [chi_square]
    split
    · rename_i h
      have h0 : bits = [] := List.eq_nil_of_length_eq_zero h
      subst h0
      simp
    · rfl
  · rw [chi_square]
    split
    · exact le_refl 0
    · exact add_nonneg (div_nonneg (sq_nonneg _) (by positivity))
        (div_nonneg (sq_nonneg _) (by positivity))
  · intro hb hc
    rw [chi_square]
    split
    · rfl
    · have htot := count_zero_add_count_one bits hb
      have h0 : (bits.count 0 : ℚ) = (bits.length : ℚ) / 2 := by
        have h : bits.count 0 * 2 = bits.length := by omega
        field_simp
        exact_mod_cast h
      have h1 : (bits.count 1 : ℚ) = (bits.length : ℚ) / 2 := by
        have h : bits.count 1 * 2 = bits.length := by omega
        field_simp
        exact_mod_cast h
      rw [h0, h1]
      simp

/-- Witness for claim C6 at the balanced sequence `[0, 1]`. -/
theorem claim_C6_chi_square_witness :
    (∀ b ∈ ([0, 1] : List Nat), b ≤ 1) ∧
    ([0, 1] : List Nat).count 0 = ([0, 1] : List Nat).count 1 ∧
    0 ≤ chi_square [0, 1] ∧ chi_square [0, 1] = 0 :=
  ⟨by decide, by decide, (claim_C6_chi_square [0, 1]).2.1,
    (claim_C6_chi_square [0, 1]).2.2.2 (by decide) (by decide)⟩

/-- Claim C8 (code bug): every pixel of a bit-plane view should be exactly
0 or 255.  The `stegdet/core.py` version satisfies this, but `core.py`
multiplies the masked value by 255 in `uint8`: on a grayscale value 2 at
plane 1 it produces `(2 & 2) * 255 mod 256 = 254`, not 255. -/
theorem claim_C8_bit_plane_values :
    bit_plane_view_core [[(2, 2, 2)]] 1 = [[254]] ∧
      bit_plane_view [[(2, 2, 2)]] 1 2 = [[255]] :=
  ⟨rfl, rfl⟩

/-- Claim C9 (code bug): a plane index outside `[0,7]` should be rejected
eagerly, but neither `bit_plane_view` implementation validates it: at
plane 8 both silently return the all-zero plane. -/
theorem claim_C9_no_plane_validation :
    bit_plane_view [[(7, 7, 7)]] 8 2 = [[0]] ∧
      bit_plane_view_core [[(7, 7, 7)]] 8 = [[0]] :=
  ⟨rfl, rfl⟩

/-- Claim C5: Shannon entropy of a bit sequence lies in `[0,1]`; it is 0
on the empty sequence and on constant nonempty sequences, and exactly 1 on
a perfectly balanced sequence.  Zero-probability symbols contribute 0 by
the explicit positivity guard in the implementation. -/
theorem claim_C5_entropy (bits : List Nat) (hb : ∀ b ∈ bits, b ≤ 1) :
    0 ≤ compute_entropy bits ∧
    compute_entropy bits ≤ 1 ∧
    compute_entropy ([] : List Nat) = 0 ∧
    (bits ≠ [] → ((∀ b ∈ bits, b = 0) ∨ (∀ b ∈ bits, b = 1)) →
      compute_entropy bits = 0) ∧
    (bits ≠ [] → bits.count 0 = bits.count 1 → compute_entropy bits = 1) := by
  have hsum_le : bits.sum ≤ bits.length := by
    rw [sum_eq_count_one bits hb]
    exact List.count_le_length 1 bits
  have hlog2 : (0 : ℝ) < Real.log 2 := Real.log_pos one_lt_two
  by_cases hne : bits.length = 0
  · have h0 : bits = [] := List.eq_nil_of_length_eq_zero hne
    subst h0
    refine ⟨?_, ?_, ?_, ?_, ?_⟩ <;> simp [compute_entropy]
  · have hbridge := compute_entropy_eq_binEntropy bits hne hsum_le
    have hlen : (0 : ℝ) < (bits.length : ℝ) := by
      have : 0 < bits.length := Nat.pos_of_ne_zero hne
      exact_mod_cast this
    have hp0 : 0 ≤ (bits.sum : ℝ) / (bits.length : ℝ) :=
      div_nonneg (by positivity) (le_of_lt hlen)
    have hp1 : (bits.sum : ℝ) / (bits.length : ℝ) ≤ 1 := by
      rw [div_le_one hlen]
      exact_mod_cast hsum_le
    refine ⟨?_, ?_, by simp [compute_entropy], ?_, ?_⟩
    · rw [hbridge]
      exact div_nonneg (Real.binEntropy_nonneg hp0 hp1) hlog2.le
    · rw [hbridge, div_le_one hlog2]
      exact Real.binEntropy_le_log_two
    · intro _ hconst
      rcases hconst with hz | ho
      · have hs0 : bits.sum = 0 := List.sum_eq_zero hz
        rw [hbridge, hs0]
        simp
      · have hc1 : bits.count 1 = bits.length :=
          List.count_eq_length.mpr (fun b hbm => (ho b hbm).symm)
        have hs1 : (bits.sum : ℝ) = (bits.length : ℝ) := by
          rw [sum_eq_count_one bits hb, hc1]
        rw [hbridge, hs1, div_self (ne_of_gt hlen)]
        simp
    · intro _ hc
      have htot := count_zero_add_count_one bits hb
      have hsum1 : bits.sum = bits.count 1 := sum_eq_count_one bits hb
      have hhalf : bits.sum * 2 = bits.length := by omega
      have hphalf : (bits.sum : ℝ) / (bits.length : ℝ) = 2⁻¹ := by
        have h2 : (bits.length : ℝ) = (bits.sum : ℝ) * 2 := by exact_mod_cast hhalf.symm
        rw [h2]
        have hsne : (bits.sum : ℝ) ≠ 0 := by
          have : bits.sum ≠ 0 := by omega
          exact_mod_cast this
        rw [div_eq_iff (mul_ne_zero hsne two_ne_zero)]
        ring
      rw [hbridge, hphalf, Real.binEntropy_two_inv, div_self (ne_of_gt hlog2)]

/-- Witness for claim C5 at the balanced sequence `[0, 1]`. -/
theorem claim_C5_entropy_witness :
    (∀ b ∈ ([0, 1] : List Nat), b ≤ 1) ∧
    0 ≤ compute_entropy [0, 1] ∧
    compute_entropy [0, 1] ≤ 1 ∧
    compute_entropy [0, 1] = 1 :=
  ⟨by decide, (claim_C5_entropy [0, 1] (by decide)).1,
    (claim_C5_entropy [0, 1] (by decide)).2.1,
    (claim_C5_entropy [0, 1] (by decide)).2.2.2.2 (by decide) (by decide)⟩

/-- Claim C10: in the per-file record of `scan_directory`, each channel's
`entropy_avg` is the arithmetic mean of its 8 per-plane entropies, the
overall `entropy_avg` is the mean of the three channel averages, and the
overall `chi2_max` is the maximum of the three channel maxima. -/
theorem claim_C10_aggregation (pixels : List (List (Nat × Nat × Nat))) :
    (scan_record pixels).red_entropy_avg =
      listMeanR ((List.range 8).map (plane_entropy (selectChannel pixels 0))) ∧
    (scan_record pixels).green_entropy_avg =
      listMeanR ((List.range 8).map (plane_entropy (selectChannel pixels 1))) ∧
    (scan_record pixels).blue_entropy_avg =
      listMeanR ((List.range 8).map (plane_entropy (selectChannel pixels 2))) ∧
    (scan_record pixels).entropy_avg =
      listMeanR [(scan_record pixels).red_entropy_avg,
        (scan_record pixels).green_entropy_avg,
        (scan_record pixels).blue_entropy_avg] ∧
    (scan_record pixels).chi2_max =
      max (scan_record pixels).red_chi2_max
        (max (scan_record pixels).green_chi2_max (scan_record pixels).blue_chi2_max) := by
  refine ⟨?_, ?_, ?_, ?_, ?_⟩
  · simp [scan_record, channel_entropy_avg, listMeanR]
  · simp [scan_record, channel_entropy_avg, listMeanR]
  · simp [scan_record, channel_entropy_avg, listMeanR]
  · simp only [scan_record, listMeanR, List.sum_cons, List.sum_nil, List.length_cons,
      List.length_nil]
    norm_num
    ring
  · simp only [scan_record]
    exact (max_assoc _ _ _)

/-- Claim C3: embedding the 32-bit big-endian byte length of a message
followed by the bits of its UTF-8 encoding into a channel's LSB sequence
(with any trailing bits) and decoding with `detect_message` returns
exactly the original message, provided the byte length is in
`[1, max_bytes]` (and fits the 32-bit header) and the message's
printable-ASCII fraction reaches `printable_ratio`. -/
theorem claim_C3_roundtrip (s : List Nat) (max_bytes : Nat) (ratio : ℚ)
    (rest : List Nat) (hs : ∀ c ∈ s, ValidScalar c)
    (h1 : 1 ≤ (utf8Encode s).length) (h2 : (utf8Encode s).length ≤ max_bytes)
    (h3 : (utf8Encode s).length < 2 ^ 32)
    (hr : ratio ≤ ((s.filter printableChar).length : ℚ) / (s.length : ℚ)) :
    detect_message
        (natToBits 32 (utf8Encode s).length ++ bytesToBits (utf8Encode s) ++ rest)
        max_bytes ratio = some s := by
  have hsne : s ≠ [] := by
    intro h0
    subst h0
    simp [utf8Encode] at h1
  set enc := utf8Encode s with henc
  set L := enc.length with hL
  set bits := natToBits 32 L ++ bytesToBits enc ++ rest with hbits
  have hassoc : bits = natToBits 32 L ++ (bytesToBits enc ++ rest) := by
    rw [hbits, List.append_assoc]
  have hlen32 : (natToBits 32 L).length = 32 := length_natToBits 32 L
  have hlenB : (bytesToBits enc).length = 8 * L := by
    rw [length_bytesToBits]
  have hlen : bits.length = 32 + (8 * L + rest.length) := by
    rw [hassoc, List.length_append, List.length_append, hlen32, hlenB]
  have htake : bits.take 32 = natToBits 32 L := by
    rw [hassoc]
    exact List.take_left' hlen32
  have hdrop : bits.drop 32 = bytesToBits enc ++ rest := by
    rw [hassoc]
    exact List.drop_left' hlen32
  have hLval : bits_to_int (bits.take 32) = L := by
    rw [htake, bits_to_int_natToBits32 L h3]
  have htake2 : (bytesToBits enc ++ rest).take (L * 8) = bytesToBits enc := by
    have h : L * 8 = (bytesToBits enc).length := by
      rw [hlenB]
      ring
    rw [h, List.take_left]
  have hpack : packbits (bytesToBits enc) = enc :=
    packbits_bytesToBits enc (utf8Encode_lt256 s hs)
  have hdec : utf8Decode enc = s := utf8Decode_utf8Encode s hs
  rw [detect_message_eq, hLval, hdrop, htake2, hpack, hdec,
    if_neg (by omega), if_neg (by omega), if_neg (by omega), if_neg hsne,
    if_neg (not_lt.mpr hr)]

/-- Witness for claim C3: the one-byte message `"A"` round-trips through a
40-bit LSB sequence with the default configuration. -/
theorem claim_C3_roundtrip_witness :
    (∀ c ∈ ([65] : List Nat), ValidScalar c) ∧
    1 ≤ (utf8Encode [65]).length ∧
    (utf8Encode [65]).length ≤ 1024 ∧
    (utf8Encode [65]).length < 2 ^ 32 ∧
    ((4 : ℚ) / 5 ≤
      ((([65] : List Nat).filter printableChar).length : ℚ) /
        (([65] : List Nat).length : ℚ)) ∧
    detect_message
        (natToBits 32 (utf8Encode [65]).length ++ bytesToBits (utf8Encode [65]) ++ [])
        1024 (4 / 5) = some [65] := by
  have hr : (4 : ℚ) / 5 ≤
      ((([65] : List Nat).filter printableChar).length : ℚ) /
        (([65] : List Nat).length : ℚ) := by
    norm_num [printableChar]
  exact ⟨by decide, by decide, by decide, by decide, hr,
    claim_C3_roundtrip [65] 1024 (4 / 5) [] (by decide) (by decide) (by decide)
      (by decide) hr⟩

/-- Claim C7 (counterexample): a channel with exactly `32 + 8*L` LSBs and
a valid length `L` need not decode successfully — with `L = 1` and the
payload byte `0x00` the printable-ratio gate rejects the message. -/
theorem claim_C7_counterexample :
    detect_message (natToBits 32 1 ++ bytesToBits [0]) 1024 (4 / 5) = none := by
  rw [detect_message_eq, if_neg (by decide), if_neg (by decide), if_neg (by decide)]
  have hmsg : utf8Decode (packbits (((natToBits 32 1 ++ bytesToBits [0]).drop 32).take
      (bits_to_int ((natToBits 32 1 ++ bytesToBits [0]).take 32) * 8))) = [0] := by
    decide
  rw [hmsg, if_neg (by decide), if_pos (by norm_num [printableChar])]

/-- Claim C7 (amended): with a valid length `L` in the header, a channel
of exactly `32 + 8*L` LSBs decodes successfully provided the decoded
payload is nonempty and passes the printable-ratio gate, and a channel one
bit short of `32 + 8*L` always yields no message. -/
theorem claim_C7_capacity :
    (∀ (payload : List Nat) (max_bytes : Nat) (ratio : ℚ),
      (∀ b ∈ payload, b < 256) →
      1 ≤ payload.length → payload.length ≤ max_bytes →
      payload.length < 2 ^ 32 →
      utf8Decode payload ≠ [] →
      ratio ≤ (((utf8Decode payload).filter printableChar).length : ℚ) /
        ((utf8Decode payload).length : ℚ) →
      detect_message (natToBits 32 payload.length ++ bytesToBits payload)
        max_bytes ratio = some (utf8Decode payload)) ∧
    (∀ (bits : List Nat) (L max_bytes : Nat) (ratio : ℚ),
      bits.take 32 = natToBits 32 L → 1 ≤ L → L ≤ max_bytes → L < 2 ^ 32 →
      bits.length = 31 + L * 8 →
      detect_message bits max_bytes ratio = none) := by
  constructor
  · intro payload max_bytes ratio hb h1 h2 h3 hmsg hr
    set L := payload.length with hL
    set bits := natToBits 32 L ++ bytesToBits payload with hbits
    have hlen32 : (natToBits 32 L).length = 32 := length_natToBits 32 L
    have hlenB : (bytesToBits payload).length = 8 * L := by
      rw [length_bytesToBits]
    have hlen : bits.length = 32 + 8 * L := by
      rw [hbits, List.length_append, hlen32, hlenB]
    have htake : bits.take 32 = natToBits 32 L := by
      rw [hbits]
      exact List.take_left' hlen32
    have hdrop : bits.drop 32 = bytesToBits payload := by
      rw [hbits]
      exact List.drop_left' hlen32
    have hLval : bits_to_int (bits.take 32) = L := by
      rw [htake, bits_to_int_natToBits32 L h3]
    have htake2 : (bytesToBits payload).take (L * 8) = bytesToBits payload := by
      apply List.take_of_length_le
      rw [hlenB]
      omega
    have hpack : packbits (bytesToBits payload) = payload :=
      packbits_bytesToBits payload hb
    rw [detect_message_eq, hLval, hdrop, htake2, hpack,
      if_neg (by omega), if_neg (by omega), if_neg (by omega), if_neg hmsg,
      if_neg (not_lt.mpr hr)]
  · intro bits L max_bytes ratio htake h1 h2 h3 hlen
    have hLval : bits_to_int (bits.take 32) = L := by
      rw [htake, bits_to_int_natToBits32 L h3]
    rw [detect_message_eq, hLval, if_neg (by omega), if_neg (by omega),
      if_pos (by omega)]

/-- Witness for claim C7: both parts instantiated — the payload `"A"`
decodes from exactly 40 bits, and a 39-bit channel with the same valid
header yields no message. -/
theorem claim_C7_capacity_witness :
    ((∀ b ∈ ([65] : List Nat), b < 256) ∧
      1 ≤ ([65] : List Nat).length ∧
      ([65] : List Nat).length ≤ 1024 ∧
      ([65] : List Nat).length < 2 ^ 32 ∧
      utf8Decode [65] ≠ [] ∧
      ((4 : ℚ) / 5 ≤ (((utf8Decode [65]).filter printableChar).length : ℚ) /
        ((utf8Decode [65]).length : ℚ)) ∧
      detect_message (natToBits 32 ([65] : List Nat).length ++ bytesToBits [65])
        1024 (4 / 5) = some (utf8Decode [65])) ∧
    ((natToBits 32 1 ++ [0, 0, 0, 0, 0, 0, 0]).take 32 = natToBits 32 1 ∧
      (natToBits 32 1 ++ [0, 0, 0, 0, 0, 0, 0]).length = 31 + 1 * 8 ∧
      detect_message (natToBits 32 1 ++ [0, 0, 0, 0, 0, 0, 0]) 1024 (4 / 5) = none) := by
  have hd : utf8Decode [65] = [65] := by decide
  have hr : (4 : ℚ) / 5 ≤ (((utf8Decode [65]).filter printableChar).length : ℚ) /
      ((utf8Decode [65]).length : ℚ) := by
    rw [hd]
    norm_num [printableChar]
  refine ⟨⟨by decide, by decide, by decide, by decide, by decide, hr, ?_⟩,
    by decide, by decide, ?_⟩
  · exact claim_C7_capacity.1 [65] 1024 (4 / 5) (by decide) (by decide) (by decide)
      (by decide) (by decide) hr
  · exact claim_C7_capacity.2 (natToBits 32 1 ++ [0, 0, 0, 0, 0, 0, 0]) 1 1024
      (4 / 5) (by decide) (by decide) (by decide) (by decide) (by decide)

end StegDet
